import Mathlib

/-!
Verification of `bin/latex_to_unicode.py`: a tool that converts LaTeX in
selected XML fields into Unicode text plus isolated `<tex-math>` math spans.

The Python source is shallowly embedded below.  The external LaTeX decoding
collaborator (`codecs.decode(s, "ulatex+utf8")` from `latexcodec`) is treated
as a black box and modelled as a function parameter `decode : String → String`
throughout, as the spec directs (it is an injected dependency).
-/

namespace LatexToUnicode

/-! ### Text normalizer (`detex`, source lines 16-33) -/

/-- The soft hyphen character U+00AD, removed by `detex` via
`s.replace(CHAR_AD, EMPTY)` in the source. -/
def softHyphen : Char := Char.ofNat 0xad

/-- Embedding of `re.sub(RE_PERCENT_NOT_AFTER_BACKSLASH, BACKSLASH_PERCENT, s)`
(source line 23): every `%` whose immediately preceding character in the
original string is not a backslash is rewritten to backslash-percent.
`prev` is the character of the original string just before the current
position (`none` at the start of the string), matching the one-character
negative lookbehind of the regex. -/
def escapePercentAux : Option Char → List Char → List Char
  | _, [] => []
  | prev, c :: rest =>
    if c = '%' ∧ prev ≠ some '\\' then
      '\\' :: '%' :: escapePercentAux (some '%') rest
    else
      c :: escapePercentAux (some c) rest

/-- String-level wrapper for the `%`-escaping step of `detex`. -/
def escapePercent (s : String) : String :=
  (escapePercentAux none s.toList).asString

/-- Embedding of `s.replace(SOFT_HYPHEN, EMPTY)` (source line 30): removes
every soft hyphen. -/
def removeSoftHyphen (s : String) : String :=
  (s.toList.filter (fun c => c ≠ softHyphen)).asString

/-- Embedding of `detex` (source lines 16-33) on a present string: escape
unescaped `%`, decode LaTeX via the external collaborator, remove soft
hyphens. -/
def detexStr (decode : String → String) (s : String) : String :=
  removeSoftHyphen (decode (escapePercent s))

/-- Embedding of `detex` (source lines 16-33): `None` maps to `None`,
otherwise escape-decode-cleanup. -/
def detex (decode : String → String) : Option String → Option String
  | none => none
  | some s => some (detexStr decode s)

/-- Predicate: `allPercentEscaped prev l` holds when every `%` in `l` is immediately
preceded by a backslash (`prev` being the character just before `l`). -/
def allPercentEscaped : Option Char → List Char → Bool
  | _, [] => true
  | prev, c :: rest =>
    (decide (c ≠ '%' ∨ prev = some '\\')) && allPercentEscaped (some c) rest

/-- String-level: every `%` in `s` is immediately preceded by a backslash. -/
def allPercentEscapedStr (s : String) : Bool :=
  allPercentEscaped none s.toList

/-! ### The math regex (`math_re`, source line 14)

`math_re = re.compile(DOLLAR GROUP(NOT_DOLLAR STAR) DOLLAR, re.MULTILINE)`:
a `$`, a captured run of non-`$` characters, a `$`.  `finditer` yields the
leftmost non-overlapping matches: repeatedly, the match runs from the next
unconsumed `$` to the `$` after it; a final unpaired `$` (and everything at or
after it) matches nothing.  We embed this by splitting the character list on
`$` and pairing the resulting segments two at a time. -/

/-- Split a character list at every `$`; the `$` separators are dropped.
Always returns at least one (possibly empty) segment. -/
def splitOnDollar : List Char → List (List Char)
  | [] => [[]]
  | c :: rest =>
    let r := splitOnDollar rest
    if c = '$' then [] :: r
    else
      match r with
      | [] => [[c]]
      | seg :: segs => (c :: seg) :: segs

/-- Inverse of `splitOnDollar`: interleave the segments with `$`. -/
def joinDollar : List (List Char) → List Char
  | [] => []
  | [a] => a
  | a :: rest => a ++ '$' :: joinDollar rest

/-- Pair the `$`-separated segments into `finditer` matches.  Segments
`[a, b, c, ...]` of `a$b$c$...` give a match with preceding text `a` and
captured interior `b`, and the pairing continues on `[c, ...]`.  A trailing
unpaired segment pair `[a, b]` (text `a$b` with a lone `$`) yields no match,
and the whole unconsumed text is the remainder.  Returns (matches, remainder),
each match being (text before the match, captured group). -/
def pairUp : List (List Char) → List (List Char × List Char) × List Char
  | [] => ([], [])
  | [a] => ([], a)
  | [a, b] => ([], a ++ '$' :: b)
  | a :: b :: c :: rest =>
    let r := pairUp (c :: rest)
    ((a, b) :: r.1, r.2)

/-- All `finditer` matches of `math_re` on `l`, as (preceding text, captured
interior) pairs, in order. -/
def mathMatches (l : List Char) : List (List Char × List Char) :=
  (pairUp (splitOnDollar l)).1

/-- The text after the last `math_re` match (the whole of `l` if there is no
match). -/
def mathRemainder (l : List Char) : List Char :=
  (pairUp (splitOnDollar l)).2

/-- Rebuild the scanned text from (matches, remainder): each match contributes
its preceding text and its interior re-wrapped in `$...$`. -/
def reconstructPairs : List (List Char × List Char) × List Char → List Char
  | ([], fin) => fin
  | ((p, i) :: ms, fin) => p ++ '$' :: i ++ '$' :: reconstructPairs (ms, fin)

/-! ### The XML element data model (`xml.etree.ElementTree.Element`)

An element has a tag, an ordered attribute mapping (Python 3 dicts preserve
insertion order, so a list of key-value pairs), an optional `text` (content
before the first child), an ordered list of children, and an optional `tail`
(content after the element's closing tag).  `text`/`tail` distinguish absent
(`None`) from the empty string, exactly as Python does. -/

structure Elem where
  tag : String
  attrib : List (String × String)
  text : Option String
  children : List Elem
  tail : Option String

/-- Embedding of `Element(TEX_MATH_TAG)` with `.text` set to the captured interior
(source lines 50-51): fresh tag `tex-math`, no attributes, no children,
no tail. -/
def texMath (s : String) : Elem :=
  { tag := "tex-math", attrib := [], text := some s, children := [], tail := none }

/-- Set the `tail` of the last element of a list (`newnode[-1].tail = text`).
The empty-list case is unreachable in the source (guarded by `len(newnode)`). -/
def setLastTail : List Elem → String → List Elem
  | [], _ => []
  | [c], t => [{ c with tail := some t }]
  | c :: c2 :: cs, t => c :: setLastTail (c2 :: cs) t

/-- Embedding of the inner helper `append_text` (source lines 40-44): if the
node under construction has no children yet, set its `text`; otherwise set the
`tail` of its last child.  Note the slot is overwritten, not concatenated. -/
def append_text (n : Elem) (t : String) : Elem :=
  if n.children.isEmpty then { n with text := some t }
  else { n with children := setLastTail n.children t }

/-- Embedding of `newnode.append(child)`. -/
def appendChild (n : Elem) (c : Elem) : Elem :=
  { n with children := n.children ++ [c] }

/-- The body of one `finditer` loop iteration in `append_math` (source lines
49-53): append the text between the previous match and this one, then a
`tex-math` element holding the captured interior. -/
def mathStep (acc : Elem) (pi : List Char × List Char) : Elem :=
  appendChild (append_text acc pi.1.asString) (texMath pi.2.asString)

/-- Embedding of the loop of `append_math` (source lines 46-55) on a present
string: run `mathStep` over every `math_re` match, then append the text after
the last match. -/
def appendMathStr (n : Elem) (t : String) : Elem :=
  let ms := mathMatches t.toList
  let fin := mathRemainder t.toList
  append_text (ms.foldl mathStep n) fin.asString

/-- Embedding of `append_math` (source lines 46-55): `None` is a no-op. -/
def append_math (n : Elem) : Option String → Elem
  | none => n
  | some t => appendMathStr n t

mutual

/-- Embedding of the child loop of `detex_node` (source lines 57-59): for each
original child in order, append its recursive transform, then run
`append_math` on its detexed tail. -/
def detexChildren (decode : String → String) : List Elem → Elem → Elem
  | [], acc => acc
  | c :: cs, acc =>
    detexChildren decode cs
      (append_math (appendChild acc (detexNodeCore decode c)) (detex decode c.tail))

/-- Embedding of `detex_node` (source lines 35-63) on a present node: build a
fresh element with the same tag and a copy of the attributes, run
`append_math` on the detexed `text`, process the children in order, and copy
the input's `tail` verbatim. -/
def detexNodeCore (decode : String → String) : Elem → Elem
  | ⟨tg, ab, tx, cs, tl⟩ =>
    let n0 : Elem := { tag := tg, attrib := ab, text := none, children := [], tail := none }
    let n1 := append_math n0 (detex decode tx)
    let n2 := detexChildren decode cs n1
    { n2 with tail := tl }

end

/-- Embedding of `detex_node` (source lines 35-63): `None` maps to `None`. -/
def detex_node (decode : String → String) : Option Elem → Option Elem
  | none => none
  | some node => some (detexNodeCore decode node)

/-! ### XML serialization (`xml.etree.ElementTree.tostring`) and
`node_tostring` (source lines 65-69)

`tostring(node, encoding=UTF8_NAME)` emits the declaration line, then the
element: opening tag with attributes (values escaped), then — when the text is
truthy or there are children — the escaped text, the serialized children and a
closing tag, otherwise a self-closing ` />`; the element's tail is escaped and
appended at the end.  Python truthiness: `None` and the empty string are both
falsy. -/

/-- Python truthiness of an optional string. -/
def optTruthy : Option String → Bool
  | none => false
  | some s => !s.isEmpty

/-- Embedding of `_escape_cdata`: `&`, `<`, `>` become entities (character-wise, as the
sequential `str.replace` calls never rewrite their own output). -/
def escapeCdataChar (c : Char) : List Char :=
  if c = '&' then "&amp;".toList
  else if c = '<' then "&lt;".toList
  else if c = '>' then "&gt;".toList
  else [c]

/-- Embedding of `_escape_cdata` over a character list. -/
def escapeCdata (l : List Char) : List Char := l.flatMap escapeCdataChar

/-- Embedding of `_escape_attrib`: additionally escapes `"` and the control characters
carriage return, newline and tab. -/
def escapeAttribChar (c : Char) : List Char :=
  if c = '&' then "&amp;".toList
  else if c = '<' then "&lt;".toList
  else if c = '>' then "&gt;".toList
  else if c = '"' then "&quot;".toList
  else if c = '\r' then "&#13;".toList
  else if c = '\n' then "&#10;".toList
  else if c = '\t' then "&#09;".toList
  else [c]

/-- Embedding of `_escape_attrib` over a character list. -/
def escapeAttrib (l : List Char) : List Char := l.flatMap escapeAttribChar

/-- One serialized attribute: space, key, `="`, escaped value, `"`. -/
def serializeAttrs (ab : List (String × String)) : List Char :=
  ab.flatMap (fun kv => ' ' :: kv.1.toList ++ '=' :: '"' :: escapeAttrib kv.2.toList ++ ['"'])

/-- Embedding of `if text: write(escape_cdata(text))`: nothing for `None` or the empty
string. -/
def cdataIfTruthy : Option String → List Char
  | none => []
  | some t => if t.isEmpty then [] else escapeCdata t.toList

mutual

/-- Serialization of one element (CPython `_serialize_xml` with
`short_empty_elements=True`, no namespaces): see section comment. -/
def serializeElem : Elem → List Char
  | ⟨tg, ab, tx, cs, tl⟩ =>
    '<' :: tg.toList ++ serializeAttrs ab ++
      (if optTruthy tx || !cs.isEmpty then
        '>' :: cdataIfTruthy tx ++ serializeList cs ++ '<' :: '/' :: tg.toList ++ ['>']
      else [' ', '/', '>']) ++
      cdataIfTruthy tl

/-- Serialization of a child list, in order. -/
def serializeList : List Elem → List Char
  | [] => []
  | c :: cs => serializeElem c ++ serializeList cs

end

/-- The single-quote character (U+0027), used in the XML declaration. -/
def singleQuote : Char := Char.ofNat 0x27

/-- The declaration line written by `tostring(..., encoding=UTF8_NAME)`:
`<?xml version=Q1.0Q encoding=Qutf8Q?>` with `Q` the single-quote
character. -/
def xmlDecl : List Char :=
  "<?xml version=".toList ++ singleQuote :: "1.0".toList ++ singleQuote ::
    " encoding=".toList ++ singleQuote :: "utf8".toList ++ singleQuote :: ['?', '>']

/-- Embedding of `s.split(NEWLINE, 1)` keeping the second part: drop everything up to and
including the first newline (`node_tostring` uses this to strip the
declaration line). -/
def dropFirstLine : List Char → List Char
  | [] => []
  | c :: rest => if c = '\n' then rest else dropFirstLine rest

/-- Python whitespace, as recognized by `str.split()` with no argument. -/
def isPySpace (c : Char) : Bool :=
  let n := c.toNat
  (0x9 ≤ n && n ≤ 0xd) || n == 0x20 || (0x1c ≤ n && n ≤ 0x1f) || n == 0x85 ||
    n == 0xa0 || n == 0x1680 || (0x2000 ≤ n && n ≤ 0x200a) || n == 0x2028 ||
    n == 0x2029 || n == 0x202f || n == 0x205f || n == 0x3000

/-- Embedding of `s.split()`: the maximal whitespace-free runs of `s`, in order (leading,
trailing and repeated whitespace produce no empty runs). -/
def pySplit : List Char → List (List Char)
  | [] => []
  | c :: rest =>
    if isPySpace c then pySplit rest
    else
      match rest, pySplit rest with
      | [], _ => [[c]]
      | r :: _, ws =>
        if isPySpace r then [c] :: ws
        else
          match ws with
          | [] => [[c]]
          | w :: ws2 => (c :: w) :: ws2

/-- Embedding of `SPACE.join(words)`. -/
def joinSpace : List (List Char) → List Char
  | [] => []
  | [w] => w
  | w :: w2 :: ws => w ++ ' ' :: joinSpace (w2 :: ws)

/-- Embedding of `node_tostring` (source lines 65-69): `None` gives the empty
string; otherwise serialize with declaration, drop the declaration line, and
re-join the whitespace-split words with single spaces. -/
def node_tostring : Option Elem → String
  | none => ""
  | some node =>
    (joinSpace (pySplit (dropFirstLine (xmlDecl ++ '\n' :: serializeElem node)))).asString

/-! ### The driver loop (source lines 71-103) -/

/-- Embedding of `paper.find(field)`: the first direct child with the given tag, if any. -/
def findChild (paper : Elem) (fieldName : String) : Option Elem :=
  paper.children.find? (fun c => c.tag == fieldName)

/-- The in-place replacement (source lines 97-101): `node.clear()` then copy
`newnode`'s attributes, text, tail and children onto the original node.  The
tag is not reassigned (it is already equal, since the transform preserves
it). -/
def mergeInto (target repl : Elem) : Elem :=
  { tag := target.tag, attrib := repl.attrib, text := repl.text,
    children := repl.children, tail := repl.tail }

/-- Replace the first child with the given tag — the one `find` returned — by
merging the replacement onto it in place. -/
def replaceFirstTag (fieldName : String) (repl : Elem) : List Elem → List Elem
  | [] => []
  | c :: cs =>
    if c.tag == fieldName then mergeInto c repl :: cs
    else c :: replaceFirstTag fieldName repl cs

/-- The diagnostic line (source line 95): root id, `-`, paper id, `: `,
original serialized form, ` -> `, new serialized form. -/
def diagLine (rootId paperId orig modi : String) : String :=
  rootId ++ "-" ++ paperId ++ ": " ++ orig ++ " -> " ++ modi

/-- Embedding of one iteration of the field loop (source lines 89-101) for one
paper and one selected field: look the field up, transform it, compare the
serialized forms, and when they differ print one diagnostic line and replace
the original node in place.  Returns the resulting paper and the diagnostic
lines emitted (in order).  The ids are extracted by the surrounding loop from
the root's and the paper's `id` attributes.  The second `match` arm is
unreachable: the serialized forms can differ only when the field was found. -/
def processField (decode : String → String) (rootId paperId fieldName : String)
    (paper : Elem) : Elem × List String :=
  let node := findChild paper fieldName
  let newnode := detex_node decode node
  let orig := node_tostring node
  let modi := node_tostring newnode
  if orig == modi then (paper, [])
  else
    match newnode with
    | some nn =>
      ({ paper with children := replaceFirstTag fieldName nn paper.children },
        [diagLine rootId paperId orig modi])
    | none => (paper, [])

/-- The parsed command line: positional input file, optional `-o` output file,
repeatable `-f` field selectors (empty list when `-f` was never given). -/
structure Args where
  infile : String
  outfile : Option String
  fields : List String

/-- Embedding of the argument validation (source lines 79-84): reject a run
with no `-f` field, then reject a run with no `-o` output file, each with the
exact message printed to the diagnostics stream before `sys.exit(1)`. -/
def checkArgs (a : Args) : Except String Args :=
  if a.fields.isEmpty then
    Except.error "error: at least one field (-f) is required"
  else if a.outfile.isNone then
    Except.error "error: output file (-o) is required"
  else
    Except.ok a

/-! ### Heap-instrumented transform, for the aliasing claim

In Python the attribute mapping of an element is a mutable dict object; the
`Element(node.tag, node.attrib)` constructor call in `detex_node` stores a
*copy* of the passed dict in the new element.  To reason about aliasing we
instrument the transform with an explicit store of attribute dicts: an
`HElem` holds the index of its dict in the store, every `Element(...)`
construction allocates a fresh cell, and the construction in `detex_node`
copies the input's cell content into the fresh cell.  The store only ever
grows, which is exactly the statement that the transform never mutates any
pre-existing object. -/

/-- The store of attribute dicts: cell `i` is the ordered key-value list of
dict number `i`. -/
abbrev AttrHeap := List (List (String × String))

/-- Read a dict from the store (out-of-range reads, which never happen for
well-formed trees, give the empty dict). -/
def lookupAttr (h : AttrHeap) (i : Nat) : List (String × String) := h.getD i []

/-- An element whose attribute mapping is dict number `attrId` of the
store. -/
structure HElem where
  tag : String
  attrId : Nat
  text : Option String
  children : List HElem
  tail : Option String

/-- Embedding of `newnode[-1].tail = text` on instrumented elements. -/
def setLastTailH : List HElem → String → List HElem
  | [], _ => []
  | [c], t => [{ c with tail := some t }]
  | c :: c2 :: cs, t => c :: setLastTailH (c2 :: cs) t

/-- Embedding of `append_text` on instrumented elements (no dict is touched). -/
def appendTextH (n : HElem) (t : String) : HElem :=
  if n.children.isEmpty then { n with text := some t }
  else { n with children := setLastTailH n.children t }

/-- Embedding of `newnode.append(child)` on instrumented elements. -/
def appendChildH (n : HElem) (c : HElem) : HElem :=
  { n with children := n.children ++ [c] }

/-- One `finditer` iteration of `append_math`, instrumented: the
`Element(TEX_MATH_TAG)` construction allocates a fresh empty dict. -/
def mathStepH (acc : HElem × AttrHeap) (pi : List Char × List Char) : HElem × AttrHeap :=
  (appendChildH (appendTextH acc.1 pi.1.asString)
      ⟨"tex-math", acc.2.length, some pi.2.asString, [], none⟩,
    acc.2 ++ [[]])

/-- Embedding of `append_math` body on instrumented elements. -/
def appendMathStrH (n : HElem) (t : String) (h : AttrHeap) : HElem × AttrHeap :=
  let ms := mathMatches t.toList
  let fin := mathRemainder t.toList
  let r := ms.foldl mathStepH (n, h)
  (appendTextH r.1 fin.asString, r.2)

/-- Embedding of `append_math` on instrumented elements: `None` is a no-op. -/
def appendMathH (n : HElem) (t : Option String) (h : AttrHeap) : HElem × AttrHeap :=
  match t with
  | none => (n, h)
  | some s => appendMathStrH n s h

mutual

/-- The child loop of `detex_node`, instrumented. -/
def detexChildrenH (decode : String → String) :
    List HElem → HElem → AttrHeap → HElem × AttrHeap
  | [], acc, h => (acc, h)
  | c :: cs, acc, h =>
    let r1 := detexNodeCoreH decode c h
    let r2 := appendMathH (appendChildH acc r1.1) (detex decode c.tail) r1.2
    detexChildrenH decode cs r2.1 r2.2

/-- Embedding of `detex_node` on a present node, instrumented: the
`Element(node.tag, node.attrib)` call allocates a fresh dict holding a copy of
the input's dict content. -/
def detexNodeCoreH (decode : String → String) : HElem → AttrHeap → HElem × AttrHeap
  | ⟨tg, aid, tx, cs, tl⟩, h =>
    let n0 : HElem := ⟨tg, h.length, none, [], none⟩
    let h0 := h ++ [lookupAttr h aid]
    let r1 := appendMathH n0 (detex decode tx) h0
    let r2 := detexChildrenH decode cs r1.1 r1.2
    ({ r2.1 with tail := tl }, r2.2)

end

/-! ### Document-order content with re-wrapped math

For stating that math extraction is structure-preserving we read back the
text/tail content of a transformed leaf node in document order, re-wrapping
each extracted `tex-math` child in `$...$`. -/

/-- The characters of an optional string (`None` contributes nothing). -/
def optChars : Option String → List Char
  | none => []
  | some s => s.toList

/-- One extracted `tex-math` child read back: its interior re-wrapped in
dollars, followed by its tail text. -/
def texWrap (c : Elem) : List Char :=
  '$' :: optChars c.text ++ '$' :: optChars c.tail

/-- All text/tail content of a transformed node in document order, the
children read back re-wrapped (meaningful when every child is an extracted
`tex-math` leaf, as for a transformed leaf input). -/
def rewrapContent (e : Elem) : List Char :=
  optChars e.text ++ e.children.flatMap texWrap

/-- The slot `append_text` would write next (the node's `text` if it has no
children, else the last child's tail) is still unset. -/
def lastSlotFree (e : Elem) : Prop :=
  match e.children.getLast? with
  | none => e.text = none
  | some c => c.tail = none

/-! ### Theorems -/

theorem escapePercentAux_escaped (l : List Char) :
    ∀ prev, allPercentEscaped prev (escapePercentAux prev l) = true := by
  induction l with
  | nil => intro prev; rfl
  | cons c rest ih =>
    intro prev
    by_cases hc : c = '%' ∧ prev ≠ some '\\'
    · simp only [escapePercentAux, if_pos hc, allPercentEscaped, ih (some '%'),
        Bool.and_true]
      simp
    · simp only [escapePercentAux, if_neg hc, allPercentEscaped, ih (some c),
        Bool.and_true]
      have hd : c ≠ '%' ∨ prev = some '\\' := by tauto
      simp [hd]

theorem escapePercentAux_fixed (l : List Char) :
    ∀ prev, allPercentEscaped prev l = true → escapePercentAux prev l = l := by
  induction l with
  | nil => intro prev _; rfl
  | cons c rest ih =>
    intro prev hall
    simp only [allPercentEscaped, Bool.and_eq_true, decide_eq_true_eq] at hall
    have hcond : ¬(c = '%' ∧ prev ≠ some '\\') := by
      rcases hall.1 with h | h
      · exact fun hc => h hc.1
      · exact fun hc => hc.2 h
    simp only [escapePercentAux, if_neg hcond]
    rw [ih (some c) hall.2]

theorem splitOnDollar_ne_nil (l : List Char) : splitOnDollar l ≠ [] := by
  cases l with
  | nil => simp [splitOnDollar]
  | cons c rest =>
    simp only [splitOnDollar]
    by_cases hc : c = '$'
    · simp [hc]
    · simp only [if_neg hc]
      cases splitOnDollar rest with
      | nil => simp
      | cons seg segs => simp

theorem joinDollar_cons (a : List Char) (r : List (List Char)) (hr : r ≠ []) :
    joinDollar (a :: r) = a ++ '$' :: joinDollar r := by
  cases r with
  | nil => exact absurd rfl hr
  | cons b rest => rfl

theorem joinDollar_splitOnDollar (l : List Char) :
    joinDollar (splitOnDollar l) = l := by
  induction l with
  | nil => rfl
  | cons c rest ih =>
    simp only [splitOnDollar]
    by_cases hc : c = '$'
    · rw [if_pos hc, joinDollar_cons _ _ (splitOnDollar_ne_nil rest), ih, hc]
      rfl
    · rw [if_neg hc]
      rcases hseg : splitOnDollar rest with _ | ⟨seg, segs⟩
      · exact absurd hseg (splitOnDollar_ne_nil rest)
      · rw [hseg] at ih
        cases segs with
        | nil =>
          simp only [joinDollar] at ih ⊢
          rw [ih]
        | cons s2 ss =>
          rw [joinDollar_cons _ _ (by simp), List.cons_append,
            ← joinDollar_cons seg (s2 :: ss) (by simp), ih]

theorem reconstructPairs_pairUp :
    (segs : List (List Char)) → reconstructPairs (pairUp segs) = joinDollar segs
  | [] => by simp [pairUp, reconstructPairs, joinDollar]
  | [_] => by simp [pairUp, reconstructPairs, joinDollar]
  | [a, b] => by simp [pairUp, reconstructPairs, joinDollar]
  | a :: b :: c :: rest => by
    have ih := reconstructPairs_pairUp (c :: rest)
    simp only [pairUp, reconstructPairs] at ih ⊢
    rw [ih, joinDollar_cons a (b :: c :: rest) (by simp),
      joinDollar_cons b (c :: rest) (by simp)]
    simp

/-- Reconstructing all matches (re-wrapped in `$`) followed by the remainder
gives back the scanned text exactly. -/
theorem reconstruct_mathMatches (l : List Char) :
    reconstructPairs (mathMatches l, mathRemainder l) = l := by
  have h : (mathMatches l, mathRemainder l) = pairUp (splitOnDollar l) := rfl
  rw [h, reconstructPairs_pairUp, joinDollar_splitOnDollar]

/-- C9: both core operations map absent input to absent output: `detex`
applied to `None` returns `None`, and `detex_node` applied to `None` returns
`None`, with no other effect. -/
theorem detex_and_detex_node_absent (decode : String → String) :
    detex decode none = none ∧ detex_node decode none = none :=
  ⟨rfl, rfl⟩

/-- C6: the tree transform copies the input node's own tail verbatim onto the
returned node: the returned node's tail equals the input's exactly, with no
escaping, decoding, soft-hyphen removal or math extraction applied to it. -/
theorem detex_node_tail_verbatim (decode : String → String) (node : Elem) :
    (detexNodeCore decode node).tail = node.tail := by
  cases node
  simp [detexNodeCore]

/-- C3: a missing output path is a usage error, not a default to standard
output: argument validation rejects a command line with a field selector but
no `-o`, with the exact error message of source line 83, so the run never
reaches the document-writing stage.  (The program's own `-o` help text claims
`default stdout`, which this behavior contradicts.) -/
theorem checkArgs_missing_outfile :
    checkArgs ⟨"anthology.xml", none, ["title"]⟩ =
      Except.error "error: output file (-o) is required" := rfl

theorem escapePercentAux_pair (p : Option Char) (v : List Char) :
    escapePercentAux p ('\\' :: '%' :: v) =
      '\\' :: '%' :: escapePercentAux (some '%') v := by
  rw [escapePercentAux, if_neg (fun h => absurd h.1 (by decide)),
    escapePercentAux, if_neg (fun h => h.2 rfl)]

theorem escapePercentAux_keeps_escaped (v : List Char) :
    ∀ (u : List Char) (prev : Option Char),
      escapePercentAux prev (u ++ '\\' :: '%' :: v) =
        escapePercentAux prev u ++ '\\' :: '%' :: escapePercentAux (some '%') v := by
  intro u
  induction u with
  | nil => intro prev; exact escapePercentAux_pair prev v
  | cons c rest ih =>
    intro prev
    by_cases hc : c = '%' ∧ prev ≠ some '\\'
    · rw [List.cons_append, escapePercentAux, if_pos hc, ih (some '%'),
        escapePercentAux, if_pos hc]
      rfl
    · rw [List.cons_append, escapePercentAux, if_neg hc, ih (some c),
        escapePercentAux, if_neg hc]
      rfl

theorem escapePercentAux_getLast (u : List Char) :
    ∀ prev, (escapePercentAux prev u).getLast? = u.getLast? := by
  induction u with
  | nil => intro prev; rfl
  | cons c rest ih =>
    intro prev
    cases rest with
    | nil =>
      by_cases hc : c = '%' ∧ prev ≠ some '\\'
      · rw [escapePercentAux, if_pos hc]
        simp [escapePercentAux, hc.1]
      · rw [escapePercentAux, if_neg hc]
        simp [escapePercentAux]
    | cons r rs =>
      rcases hy : (r :: rs).getLast? with _ | y
      · rw [List.getLast?_eq_none_iff] at hy
        simp at hy
      · by_cases hc : c = '%' ∧ prev ≠ some '\\'
        · rw [escapePercentAux, if_pos hc,
            show ('\\' :: '%' :: escapePercentAux (some '%') (r :: rs)) =
              ['\\', '%'] ++ escapePercentAux (some '%') (r :: rs) from rfl,
            List.getLast?_append, ih (some '%'), hy]
          simp [List.getLast?_cons_cons, hy]
        · rw [escapePercentAux, if_neg hc,
            show (c :: escapePercentAux (some c) (r :: rs)) =
              [c] ++ escapePercentAux (some c) (r :: rs) from rfl,
            List.getLast?_append, ih (some c), hy]
          simp [List.getLast?_cons_cons, hy]

/-- C4: escaping invariant of the text normalizer, for every input string.
(1) In the intermediate string handed to the external decoder every `%` is
immediately preceded by a backslash.  (2) Every occurrence already written as
backslash-`%` in the input — at any position, in arbitrary (also mixed)
surroundings — is not double-escaped: the output is exactly the escaped
prefix, then the two characters backslash-`%` verbatim (no backslash is
inserted in front of them), then the escaped remainder; moreover the escaped
prefix ends in the same character the original prefix does, so the escaping
step never manufactures a backslash-backslash-`%` that the input did not
already contain.  (3) A string all of whose `%` are already escaped passes
through completely unchanged. -/
theorem escapePercent_invariant (s : String) :
    allPercentEscapedStr (escapePercent s) = true ∧
      (∀ u v, s.toList = u ++ '\\' :: '%' :: v →
        (escapePercent s).toList =
            escapePercentAux none u ++
              '\\' :: '%' :: escapePercentAux (some '%') v ∧
          (escapePercentAux none u).getLast? = u.getLast?) ∧
      (allPercentEscapedStr s = true → escapePercent s = s) := by
  refine ⟨?_, ?_, ?_⟩
  · have h := escapePercentAux_escaped s.toList none
    simpa [allPercentEscapedStr, escapePercent, List.toList_asString] using h
  · intro u v hdec
    have h1 : (escapePercent s).toList = escapePercentAux none s.toList :=
      List.toList_asString (escapePercentAux none s.toList)
    rw [h1, hdec, escapePercentAux_keeps_escaped v u none]
    exact ⟨rfl, escapePercentAux_getLast u none⟩
  · intro h
    have h2 := escapePercentAux_fixed s.toList none (by simpa [allPercentEscapedStr] using h)
    show (escapePercentAux none s.toList).asString = s
    rw [h2, String.asString_toList]

/-- Witness for C4 at the spec's mixed input `50\% vs 50%`: the embedded
`\%` occurrence passes through verbatim with the prefix's last character
unchanged, the whole output is `50\% vs 50\%` (the bare `%` escaped, the
escaped one untouched), every `%` in the output is backslash-preceded, and
the fully escaped `a\%b` is a fixed point. -/
theorem escapePercent_invariant_witness :
    allPercentEscapedStr (escapePercent "50\\% vs 50%") = true ∧
      ("50\\% vs 50%".toList =
          ['5', '0'] ++ '\\' :: '%' :: " vs 50%".toList ∧
        (escapePercent "50\\% vs 50%").toList =
            escapePercentAux none ['5', '0'] ++
              '\\' :: '%' :: escapePercentAux (some '%') " vs 50%".toList ∧
          (escapePercentAux none ['5', '0']).getLast? =
            (['5', '0'] : List Char).getLast?) ∧
      escapePercent "50\\% vs 50%" = "50\\% vs 50\\%" ∧
      (allPercentEscapedStr "a\\%b" = true ∧ escapePercent "a\\%b" = "a\\%b") :=
  ⟨(escapePercent_invariant "50\\% vs 50%").1,
    ⟨by decide,
      (escapePercent_invariant "50\\% vs 50%").2.1 ['5', '0'] " vs 50%".toList
        (by decide)⟩,
    by decide,
    by decide, (escapePercent_invariant "a\\%b").2.2 (by decide)⟩

/-- C7: for every paper and every selected field, a diagnostic line is
emitted if and only if the field's serialized form changed: when the
serialized original and transformed subtrees differ, exactly one line — root
id, paper id, original form and new form, joined by the delimiters of source
line 95 — is emitted; when they agree, no line is emitted for that
field/paper pair. -/
theorem processField_diag_iff_changed (decode : String → String)
    (rootId paperId fieldName : String) (paper : Elem) :
    (processField decode rootId paperId fieldName paper).2 =
      if node_tostring (findChild paper fieldName) =
          node_tostring (detex_node decode (findChild paper fieldName)) then
        ([] : List String)
      else
        [diagLine rootId paperId (node_tostring (findChild paper fieldName))
          (node_tostring (detex_node decode (findChild paper fieldName)))] := by
  rcases hfind : findChild paper fieldName with _ | n
  · simp [processField, hfind, detex_node, node_tostring]
  · by_cases h : node_tostring (some n) = node_tostring (detex_node decode (some n))
    · simp [processField, hfind, detex_node] at h ⊢
      simp [h]
    · simp [processField, hfind, detex_node] at h ⊢
      simp [h]

/-- C8: missing field is a no-op: when a paper has no child with the selected
field's tag, processing that field leaves the paper unchanged and emits no
diagnostic line (and, the embedding being total, raises no error). -/
theorem processField_missing_field_noop (decode : String → String)
    (rootId paperId fieldName : String) (paper : Elem)
    (habs : ∀ c ∈ paper.children, c.tag ≠ fieldName) :
    processField decode rootId paperId fieldName paper = (paper, []) := by
  have hfind : findChild paper fieldName = none := by
    apply List.find?_eq_none.mpr
    intro c hc
    simpa using habs c hc
  simp [processField, hfind, detex_node, node_tostring]

/-- Witness for C8: a paper holding only an `author` child is untouched when
the `title` field is processed. -/
theorem processField_missing_field_noop_witness :
    (∀ c ∈ ([⟨"author", [], some "Ada", [], none⟩] : List Elem), c.tag ≠ "title") ∧
      processField (fun s => s) "R" "P" "title"
          ⟨"paper", [("id", "P")], none, [⟨"author", [], some "Ada", [], none⟩], none⟩ =
        (⟨"paper", [("id", "P")], none, [⟨"author", [], some "Ada", [], none⟩], none⟩,
          []) :=
  ⟨by decide, processField_missing_field_noop _ _ _ _ _ (by decide)⟩

theorem dropFirstLine_append (l s : List Char) (hl : ∀ c ∈ l, c ≠ '\n') :
    dropFirstLine (l ++ '\n' :: s) = s := by
  induction l with
  | nil => simp [dropFirstLine]
  | cons c rest ih =>
    have hc : c ≠ '\n' := hl c (by simp)
    simp only [List.cons_append, dropFirstLine, if_neg hc]
    exact ih (fun x hx => hl x (by simp [hx]))

/-- Evaluation of `node_tostring` on a present node is the whitespace-collapsed serialized
element: the declaration line is stripped entirely. -/
theorem node_tostring_some (e : Elem) :
    node_tostring (some e) = (joinSpace (pySplit (serializeElem e))).asString := by
  have h : dropFirstLine (xmlDecl ++ '\n' :: serializeElem e) = serializeElem e :=
    dropFirstLine_append xmlDecl (serializeElem e) (by decide)
  simp [node_tostring, h]

/-- C10: change detection is whitespace-insensitive.  The comparison strips
the XML declaration and collapses whitespace runs (via split/join on
whitespace), so when the transformed subtree's serialization differs from the
original's only in whitespace — same whitespace-separated words — the two
compare equal: no diagnostic line is emitted and the original node is kept
unreplaced in the paper, un-normalized content and all. -/
theorem processField_whitespace_insensitive (decode : String → String)
    (rootId paperId fieldName : String) (paper n : Elem)
    (hfind : findChild paper fieldName = some n)
    (_hdiff : serializeElem (detexNodeCore decode n) ≠ serializeElem n)
    (hws : pySplit (serializeElem (detexNodeCore decode n)) = pySplit (serializeElem n)) :
    node_tostring (some n) = node_tostring (detex_node decode (some n)) ∧
      processField decode rootId paperId fieldName paper = (paper, []) := by
  have heq : node_tostring (some n) = node_tostring (some (detexNodeCore decode n)) := by
    rw [node_tostring_some, node_tostring_some, hws]
  refine ⟨by simpa [detex_node] using heq, ?_⟩
  simp only [processField, hfind, detex_node]
  rw [if_pos (by simpa [detex_node] using (beq_iff_eq.mpr heq))]

/-- Witness for C10: with a decoder that turns a newline into a space, the
title `a(newline)b` serializes differently after transformation but with the
same words, so no diagnostic is produced and the paper keeps the original
node. -/
theorem processField_whitespace_insensitive_witness :
    (findChild
          ⟨"paper", [("id", "P")], none, [⟨"title", [], some "a\nb", [], none⟩], none⟩
          "title" = some ⟨"title", [], some "a\nb", [], none⟩ ∧
        serializeElem
            (detexNodeCore
              (fun s => (s.toList.map fun c => if c = '\n' then ' ' else c).asString)
              ⟨"title", [], some "a\nb", [], none⟩) ≠
          serializeElem ⟨"title", [], some "a\nb", [], none⟩ ∧
        pySplit
            (serializeElem
              (detexNodeCore
                (fun s => (s.toList.map fun c => if c = '\n' then ' ' else c).asString)
                ⟨"title", [], some "a\nb", [], none⟩)) =
          pySplit (serializeElem ⟨"title", [], some "a\nb", [], none⟩)) ∧
      processField (fun s => (s.toList.map fun c => if c = '\n' then ' ' else c).asString)
          "R" "P" "title"
          ⟨"paper", [("id", "P")], none, [⟨"title", [], some "a\nb", [], none⟩], none⟩ =
        (⟨"paper", [("id", "P")], none, [⟨"title", [], some "a\nb", [], none⟩], none⟩,
          []) :=
  ⟨⟨rfl, by decide, by decide⟩,
    (processField_whitespace_insensitive
        (fun s => (s.toList.map fun c => if c = '\n' then ' ' else c).asString)
        "R" "P" "title"
        ⟨"paper", [("id", "P")], none, [⟨"title", [], some "a\nb", [], none⟩], none⟩
        ⟨"title", [], some "a\nb", [], none⟩
        rfl (by decide) (by decide)).2⟩

theorem setLastTail_proj : (cs : List Elem) → (t : String) →
    (setLastTail cs t).map (fun c => (c.tag, c.text)) =
      cs.map (fun c => (c.tag, c.text))
  | [], _ => rfl
  | [_], _ => rfl
  | c :: c2 :: cs, t => by
    simp only [setLastTail, List.map_cons, setLastTail_proj (c2 :: cs) t]

theorem append_text_proj (n : Elem) (t : String) :
    (append_text n t).children.map (fun c => (c.tag, c.text)) =
      n.children.map (fun c => (c.tag, c.text)) := by
  unfold append_text
  split
  · rfl
  · exact setLastTail_proj n.children t

theorem mathStep_proj (acc : Elem) (pi : List Char × List Char) :
    (mathStep acc pi).children.map (fun c => (c.tag, c.text)) =
      acc.children.map (fun c => (c.tag, c.text)) ++
        [("tex-math", some pi.2.asString)] := by
  simp [mathStep, appendChild, append_text_proj, texMath]

theorem mathFold_proj (ms : List (List Char × List Char)) :
    ∀ acc : Elem,
      (ms.foldl mathStep acc).children.map (fun c => (c.tag, c.text)) =
        acc.children.map (fun c => (c.tag, c.text)) ++
          ms.map (fun pi => ("tex-math", some pi.2.asString)) := by
  induction ms with
  | nil => intro acc; simp
  | cons pi ms ih =>
    intro acc
    simp [List.foldl_cons, ih, mathStep_proj]

theorem appendMathStr_children (n : Elem) (t : String) :
    (appendMathStr n t).children.map (fun c => (c.tag, c.text)) =
      n.children.map (fun c => (c.tag, c.text)) ++
        (mathMatches t.toList).map (fun pi => ("tex-math", some pi.2.asString)) := by
  simp [appendMathStr, append_text_proj, mathFold_proj]

theorem setLastTail_texWrap : (cs : List Elem) → (t : String) → (c : Elem) →
    cs.getLast? = some c → c.tail = none →
    (setLastTail cs t).flatMap texWrap = cs.flatMap texWrap ++ t.toList
  | [], _, _, h, _ => by simp at h
  | [c0], t, c, h, htail => by
    rw [List.getLast?_singleton, Option.some_inj] at h
    subst h
    simp [setLastTail, texWrap, optChars, htail]
  | c0 :: c1 :: cs, t, c, h, htail => by
    rw [List.getLast?_cons_cons] at h
    simp only [setLastTail, List.flatMap_cons,
      setLastTail_texWrap (c1 :: cs) t c h htail, List.append_assoc]

theorem append_text_rewrap (e : Elem) (t : String) (hfree : lastSlotFree e) :
    rewrapContent (append_text e t) = rewrapContent e ++ t.toList := by
  rcases e with ⟨tg, ab, tx, cs, tl⟩
  cases cs with
  | nil =>
    have htx : tx = none := by
      simpa [lastSlotFree] using hfree
    subst htx
    simp [append_text, rewrapContent, optChars]
  | cons c0 cs0 =>
    rcases hlast : (c0 :: cs0).getLast? with _ | c
    · rw [List.getLast?_eq_none_iff] at hlast
      exact absurd hlast (by simp)
    · have htail : c.tail = none := by
        unfold lastSlotFree at hfree
        rw [hlast] at hfree
        exact hfree
      have hsl := setLastTail_texWrap (c0 :: cs0) t c hlast htail
      simp [append_text, rewrapContent, hsl]

theorem mathStep_rewrap (acc : Elem) (pi : List Char × List Char)
    (hfree : lastSlotFree acc) :
    rewrapContent (mathStep acc pi) =
        rewrapContent acc ++ pi.1 ++ '$' :: pi.2 ++ ['$'] ∧
      lastSlotFree (mathStep acc pi) := by
  constructor
  · have hac : rewrapContent (mathStep acc pi) =
        rewrapContent (append_text acc pi.1.asString) ++
          texWrap (texMath pi.2.asString) := by
      simp [mathStep, appendChild, rewrapContent, List.flatMap_append]
    rw [hac, append_text_rewrap acc _ hfree, List.toList_asString]
    simp [texWrap, texMath, optChars, List.toList_asString]
    exact List.toList_asString pi.2
  · have hch : (mathStep acc pi).children =
        (append_text acc pi.1.asString).children ++ [texMath pi.2.asString] := by
      simp [mathStep, appendChild]
    unfold lastSlotFree
    rw [hch, List.getLast?_concat]
    rfl

theorem mathFold_rewrap (ms : List (List Char × List Char)) :
    ∀ acc : Elem, lastSlotFree acc →
      rewrapContent (ms.foldl mathStep acc) =
          rewrapContent acc ++
            ms.flatMap (fun pi => pi.1 ++ '$' :: pi.2 ++ ['$']) ∧
        lastSlotFree (ms.foldl mathStep acc) := by
  induction ms with
  | nil =>
    intro acc h
    exact ⟨by simp, by simpa using h⟩
  | cons pi ms ih =>
    intro acc h
    obtain ⟨hre, hfree⟩ := mathStep_rewrap acc pi h
    obtain ⟨ihre, ihfree⟩ := ih (mathStep acc pi) hfree
    refine ⟨?_, by simpa using ihfree⟩
    simp [List.foldl_cons, ihre, hre]

theorem flatMap_wrap_reconstruct :
    (ms : List (List Char × List Char)) → (fin : List Char) →
    ms.flatMap (fun pi => pi.1 ++ '$' :: pi.2 ++ ['$']) ++ fin =
      reconstructPairs (ms, fin)
  | [], fin => by simp [reconstructPairs]
  | (p, i) :: ms, fin => by
    simp [reconstructPairs, ← flatMap_wrap_reconstruct ms fin]

theorem appendMathStr_rewrap (n : Elem) (t : String) (hfree : lastSlotFree n) :
    rewrapContent (appendMathStr n t) = rewrapContent n ++ t.toList := by
  unfold appendMathStr
  obtain ⟨hre, hfold⟩ := mathFold_rewrap (mathMatches t.toList) n hfree
  rw [append_text_rewrap _ _ hfold, List.toList_asString, hre, List.append_assoc,
    flatMap_wrap_reconstruct, reconstruct_mathMatches]

/-- C2: math extraction is structure-preserving.  For a leaf field node with
text `s`, the transform adds exactly one `tex-math` child per `math_re` match
of the normalized text (and nothing else): the children, projected to
(tag, text), are precisely the captured interiors wrapped in `tex-math`
elements, unprocessed; their number is the number of regions; and the
resulting text/tail content read back in document order, with every interior
re-wrapped in `$...$`, is exactly the normalizer's output on `s`, delimiters
untouched. -/
theorem detex_node_math_extraction (decode : String → String) (tg : String)
    (ab : List (String × String)) (s : String) (tl : Option String) :
    (detexNodeCore decode ⟨tg, ab, some s, [], tl⟩).children.map
          (fun c => (c.tag, c.text)) =
        (mathMatches (detexStr decode s).toList).map
          (fun pi => ("tex-math", some pi.2.asString)) ∧
      (detexNodeCore decode ⟨tg, ab, some s, [], tl⟩).children.length =
        (mathMatches (detexStr decode s).toList).length ∧
      rewrapContent (detexNodeCore decode ⟨tg, ab, some s, [], tl⟩) =
        (detexStr decode s).toList := by
  have hcore : detexNodeCore decode ⟨tg, ab, some s, [], tl⟩ =
      { appendMathStr ⟨tg, ab, none, [], none⟩ (detexStr decode s) with tail := tl } := by
    simp [detexNodeCore, detex, append_math, detexChildren]
  have hfree : lastSlotFree ⟨tg, ab, none, [], none⟩ := by
    simp [lastSlotFree]
  have hch := appendMathStr_children ⟨tg, ab, none, [], none⟩ (detexStr decode s)
  simp only [List.map_nil, List.nil_append] at hch
  have hproj : (detexNodeCore decode ⟨tg, ab, some s, [], tl⟩).children.map
      (fun c => (c.tag, c.text)) =
      (mathMatches (detexStr decode s).toList).map
        (fun pi => ("tex-math", some pi.2.asString)) := by
    rw [hcore]
    exact hch
  refine ⟨hproj, ?_, ?_⟩
  · have := congrArg List.length hproj
    simpa using this
  · have hre := appendMathStr_rewrap ⟨tg, ab, none, [], none⟩ (detexStr decode s) hfree
    rw [hcore]
    simpa [rewrapContent, optChars] using hre

/-- C1 counterexample: for the input node `<title>$x$</title>`, whose text
starts with a `$...$` region, the transformed node's `text` slot is the
*empty string*, not absent: `append_text` is called on the zero-length run
before the match with no emptiness guard. -/
theorem append_text_empty_run_counterexample :
    (detexNodeCore (fun s => s) ⟨"title", [], some "$x$", [], none⟩).text = some "" ∧
      some "" ≠ (none : Option String) :=
  ⟨rfl, by decide⟩

theorem append_text_text_of_ne (n : Elem) (t : String) (h : n.children ≠ []) :
    (append_text n t).text = n.text := by
  unfold append_text
  rw [if_neg (by simpa [List.isEmpty_iff] using h)]

theorem setLastTail_ne_nil (cs : List Elem) (t : String) (h : cs ≠ []) :
    setLastTail cs t ≠ [] := by
  cases cs with
  | nil => exact absurd rfl h
  | cons c cs0 =>
    cases cs0 with
    | nil => simp [setLastTail]
    | cons c2 cs1 => simp [setLastTail]

theorem append_text_children_ne (n : Elem) (t : String) (h : n.children ≠ []) :
    (append_text n t).children ≠ [] := by
  unfold append_text
  rw [if_neg (by simpa [List.isEmpty_iff] using h)]
  exact setLastTail_ne_nil n.children t h

theorem mathFold_text_stable (ms : List (List Char × List Char)) :
    ∀ acc : Elem, acc.children ≠ [] →
      (ms.foldl mathStep acc).text = acc.text ∧
        (ms.foldl mathStep acc).children ≠ [] := by
  induction ms with
  | nil => intro acc h; exact ⟨rfl, h⟩
  | cons pi ms ih =>
    intro acc h
    have hstep_text : (mathStep acc pi).text = acc.text := by
      simp [mathStep, appendChild, append_text_text_of_ne acc _ h]
    have hstep_ne : (mathStep acc pi).children ≠ [] := by
      simp [mathStep, appendChild]
    obtain ⟨h1, h2⟩ := ih (mathStep acc pi) hstep_ne
    exact ⟨by rw [List.foldl_cons, h1, hstep_text], by rwa [List.foldl_cons]⟩

/-- C1 amended: a text run of length zero *is* appended.  When the normalized
text of a leaf field node begins with a complete `$...$` region (its
`$`-split starts with an empty segment and contains at least one full match),
the transformed node's `text` is set to the empty string — the slot holds
`""` rather than being left absent. -/
theorem leading_math_empty_text (decode : String → String) (tg : String)
    (ab : List (String × String)) (s : String) (tl : Option String)
    (i : List Char) (rest : List (List Char))
    (hsplit : splitOnDollar (detexStr decode s).toList = [] :: i :: rest)
    (hrest : rest ≠ []) :
    (detexNodeCore decode ⟨tg, ab, some s, [], tl⟩).text = some "" := by
  have hcore : detexNodeCore decode ⟨tg, ab, some s, [], tl⟩ =
      { appendMathStr ⟨tg, ab, none, [], none⟩ (detexStr decode s) with tail := tl } := by
    simp [detexNodeCore, detex, append_math, detexChildren]
  rcases hr : rest with _ | ⟨r0, rs⟩
  · exact absurd hr hrest
  subst hr
  have hsplit2 : splitOnDollar (detexStr decode s).data = [] :: i :: r0 :: rs := hsplit
  have hms : mathMatches (detexStr decode s).toList =
      ([], i) :: (pairUp (r0 :: rs)).1 := by
    simp [mathMatches, hsplit2, pairUp]
  rw [hcore]
  show (appendMathStr ⟨tg, ab, none, [], none⟩ (detexStr decode s)).text = some ""
  unfold appendMathStr
  rw [hms]
  simp only [List.foldl_cons]
  have hbase : (mathStep ⟨tg, ab, none, [], none⟩ ([], i)).text = some "" ∧
      (mathStep ⟨tg, ab, none, [], none⟩ ([], i)).children ≠ [] := by
    constructor
    · show (append_text ⟨tg, ab, none, [], none⟩ [].asString).text = some ""
      rfl
    · simp [mathStep, appendChild]
  obtain ⟨hf1, hf2⟩ :=
    mathFold_text_stable (pairUp (r0 :: rs)).1
      (mathStep ⟨tg, ab, none, [], none⟩ ([], i)) hbase.2
  rw [append_text_text_of_ne _ _ hf2, hf1, hbase.1]

/-- Witness for C1 amended at the concrete input `$x$` (with the identity
decoder): the `$`-split is `[[], [x], []]` and the transformed node's text is
the empty string. -/
theorem leading_math_empty_text_witness :
    (splitOnDollar (detexStr (fun s => s) "$x$").toList = [] :: ['x'] :: [[]] ∧
        ([[]] : List (List Char)) ≠ []) ∧
      (detexNodeCore (fun s => s) ⟨"title", [], some "$x$", [], none⟩).text =
        some "" :=
  ⟨⟨rfl, by decide⟩,
    leading_math_empty_text (fun s => s) "title" [] "$x$" none ['x'] [[]]
      rfl (by decide)⟩

theorem appendTextH_attrId (n : HElem) (t : String) :
    (appendTextH n t).attrId = n.attrId := by
  unfold appendTextH
  split <;> rfl

theorem appendChildH_attrId (n c : HElem) : (appendChildH n c).attrId = n.attrId := rfl

theorem mathFoldH_facts (ms : List (List Char × List Char)) :
    ∀ (n : HElem) (h : AttrHeap),
      (ms.foldl mathStepH (n, h)).1.attrId = n.attrId ∧
        ∃ ext, (ms.foldl mathStepH (n, h)).2 = h ++ ext := by
  induction ms with
  | nil =>
    intro n h
    exact ⟨rfl, [], by simp⟩
  | cons pi ms ih =>
    intro n h
    rw [List.foldl_cons]
    have hst : mathStepH (n, h) pi =
        (appendChildH (appendTextH n pi.1.asString)
            ⟨"tex-math", h.length, some pi.2.asString, [], none⟩,
          h ++ [[]]) := rfl
    rw [hst]
    obtain ⟨h1, ext, h2⟩ := ih _ (h ++ [[]])
    refine ⟨?_, [[]] ++ ext, ?_⟩
    · rw [h1, appendChildH_attrId, appendTextH_attrId]
    · rw [h2, List.append_assoc]

theorem appendMathStrH_facts (n : HElem) (t : String) (h : AttrHeap) :
    (appendMathStrH n t h).1.attrId = n.attrId ∧
      ∃ ext, (appendMathStrH n t h).2 = h ++ ext := by
  unfold appendMathStrH
  obtain ⟨h1, ext, h2⟩ := mathFoldH_facts (mathMatches t.toList) n h
  exact ⟨by rw [appendTextH_attrId, h1], ext, h2⟩

theorem appendMathH_facts (n : HElem) (t : Option String) (h : AttrHeap) :
    (appendMathH n t h).1.attrId = n.attrId ∧
      ∃ ext, (appendMathH n t h).2 = h ++ ext := by
  cases t with
  | none => exact ⟨rfl, [], by simp [appendMathH]⟩
  | some s => exact appendMathStrH_facts n s h

mutual

theorem detexChildrenH_facts (decode : String → String) :
    (cs : List HElem) → (acc : HElem) → (h : AttrHeap) →
    (detexChildrenH decode cs acc h).1.attrId = acc.attrId ∧
      ∃ ext, (detexChildrenH decode cs acc h).2 = h ++ ext
  | [], acc, h => ⟨rfl, [], by simp [detexChildrenH]⟩
  | c :: cs, acc, h => by
    obtain ⟨hn, ext1, he1⟩ := detexNodeCoreH_facts decode c h
    have hunfold : detexChildrenH decode (c :: cs) acc h =
        detexChildrenH decode cs
          (appendMathH (appendChildH acc (detexNodeCoreH decode c h).1)
            (detex decode c.tail) (detexNodeCoreH decode c h).2).1
          (appendMathH (appendChildH acc (detexNodeCoreH decode c h).1)
            (detex decode c.tail) (detexNodeCoreH decode c h).2).2 := rfl
    obtain ⟨ha, ext2, he2⟩ :=
      appendMathH_facts (appendChildH acc (detexNodeCoreH decode c h).1)
        (detex decode c.tail) (detexNodeCoreH decode c h).2
    obtain ⟨hrec, ext3, he3⟩ :=
      detexChildrenH_facts decode cs
        (appendMathH (appendChildH acc (detexNodeCoreH decode c h).1)
          (detex decode c.tail) (detexNodeCoreH decode c h).2).1
        (appendMathH (appendChildH acc (detexNodeCoreH decode c h).1)
          (detex decode c.tail) (detexNodeCoreH decode c h).2).2
    rw [hunfold]
    refine ⟨by rw [hrec, ha, appendChildH_attrId], ?_⟩
    refine ⟨[lookupAttr h c.attrId] ++ ext1 ++ ext2 ++ ext3, ?_⟩
    rw [he3, he2, he1]
    simp [List.append_assoc]

theorem detexNodeCoreH_facts (decode : String → String) :
    (node : HElem) → (h : AttrHeap) →
    (detexNodeCoreH decode node h).1.attrId = h.length ∧
      ∃ ext, (detexNodeCoreH decode node h).2 =
        (h ++ [lookupAttr h node.attrId]) ++ ext
  | ⟨tg, aid, tx, cs, tl⟩, h => by
    have hunfold : detexNodeCoreH decode ⟨tg, aid, tx, cs, tl⟩ h =
        ({ (detexChildrenH decode cs
              (appendMathH ⟨tg, h.length, none, [], none⟩ (detex decode tx)
                (h ++ [lookupAttr h aid])).1
              (appendMathH ⟨tg, h.length, none, [], none⟩ (detex decode tx)
                (h ++ [lookupAttr h aid])).2).1 with tail := tl },
          (detexChildrenH decode cs
            (appendMathH ⟨tg, h.length, none, [], none⟩ (detex decode tx)
              (h ++ [lookupAttr h aid])).1
            (appendMathH ⟨tg, h.length, none, [], none⟩ (detex decode tx)
              (h ++ [lookupAttr h aid])).2).2) := rfl
    obtain ⟨ha, ext1, he1⟩ :=
      appendMathH_facts ⟨tg, h.length, none, [], none⟩ (detex decode tx)
        (h ++ [lookupAttr h aid])
    obtain ⟨hc, ext2, he2⟩ :=
      detexChildrenH_facts decode cs
        (appendMathH ⟨tg, h.length, none, [], none⟩ (detex decode tx)
          (h ++ [lookupAttr h aid])).1
        (appendMathH ⟨tg, h.length, none, [], none⟩ (detex decode tx)
          (h ++ [lookupAttr h aid])).2
    rw [hunfold]
    refine ⟨by rw [hc, ha], ext1 ++ ext2, ?_⟩
    show (detexChildrenH decode cs _ _).2 = _
    rw [he2, he1, List.append_assoc]

end

theorem getD_append_length (l1 l2 : AttrHeap) (x : List (String × String)) :
    (l1 ++ x :: l2).getD l1.length [] = x := by
  induction l1 with
  | nil => rfl
  | cons a l ih => simpa using ih

/-- C5: the tree transform never mutates its input, and the returned node's
attribute mapping is a copy, not an alias, of the input's.  In the
instrumented semantics: the store of attribute dicts is only extended (every
pre-existing dict — in particular every dict of the input tree — is
unchanged), the returned node's dict is a freshly allocated one, distinct
from the input node's, and its content equals the input node's dict content,
so mutating the returned node's attributes can never affect the original. -/
theorem detex_node_no_mutation (decode : String → String) (node : HElem)
    (h : AttrHeap) (hwf : node.attrId < h.length) :
    (detexNodeCoreH decode node h).2.take h.length = h ∧
      (detexNodeCoreH decode node h).1.attrId = h.length ∧
      (detexNodeCoreH decode node h).1.attrId ≠ node.attrId ∧
      lookupAttr (detexNodeCoreH decode node h).2
          ((detexNodeCoreH decode node h).1.attrId) =
        lookupAttr h node.attrId := by
  obtain ⟨hid, ext, hext⟩ := detexNodeCoreH_facts decode node h
  have hform : (detexNodeCoreH decode node h).2 =
      h ++ (lookupAttr h node.attrId :: ext) := by
    rw [hext]
    simp
  refine ⟨?_, hid, ?_, ?_⟩
  · rw [hform]
    exact List.take_left h _
  · rw [hid]
    exact fun hcontra => absurd hcontra.symm (Nat.ne_of_lt hwf)
  · rw [hid, hform]
    exact getD_append_length h ext (lookupAttr h node.attrId)

/-- Witness for C5 at a concrete input: one pre-existing dict, a node using
it; after the transform the store's first cell is unchanged, the new node
points at the freshly allocated cell 1, and that cell holds a copy of the
original content. -/
theorem detex_node_no_mutation_witness :
    (0 < 1) ∧
      ((detexNodeCoreH (fun s => s) ⟨"t", 0, some "a", [], none⟩
            [[("k", "v")]]).2.take 1 = [[("k", "v")]] ∧
        (detexNodeCoreH (fun s => s) ⟨"t", 0, some "a", [], none⟩
            [[("k", "v")]]).1.attrId = 1 ∧
        (detexNodeCoreH (fun s => s) ⟨"t", 0, some "a", [], none⟩
            [[("k", "v")]]).1.attrId ≠ 0 ∧
        lookupAttr (detexNodeCoreH (fun s => s) ⟨"t", 0, some "a", [], none⟩
              [[("k", "v")]]).2
            ((detexNodeCoreH (fun s => s) ⟨"t", 0, some "a", [], none⟩
              [[("k", "v")]]).1.attrId) =
          lookupAttr [[("k", "v")]] 0) :=
  ⟨by decide,
    detex_node_no_mutation (fun s => s) ⟨"t", 0, some "a", [], none⟩
      [[("k", "v")]] (by decide)⟩

end LatexToUnicode
